import Mathlib

/-!
# Shiptivitas board: lane reconciliation and persistence

A shallow embedding of `src/src/Board.js` (the `Board` React component): the
classification step of `loadClientsFromApi`, `syncStateWithDOM`,
`buildUpdates`, `persistBoard` and the Dragula drop handler, followed by the
properties of the board engine proved about them.

Modelling conventions.

* A card is a JavaScript object. Its three inspected properties `id`, `status`
  and `priority` are fields that may be absent (`none`, read as `undefined`);
  every other property is kept in `rest` and is never inspected.
* Identifiers are strings or integers. Object property keys and URL path
  segments are strings, so an identifier is used through `toKey`, the string
  JavaScript coerces it to.
* `clientMap` is a finite map from keys to cards. This is exact for every key
  some card has. For a key no card has the source falls through to the
  object's prototype, which holds nothing to spread unless a card with the
  identifier `__proto__` has replaced it (`clientMap['__proto__'] = c` sets
  the prototype). A theorem that looks up a key no card has therefore states
  as a hypothesis that no card of the board has the key `__proto__`.
* Each child of a lane container carries a `data-id`, read as a string.
* `Array.prototype.sort` is stable (ECMAScript 2019); it is modelled by a
  stable insertion sort. A comparator result of `NaN` counts as `0`.
* Arrays are mutable: `filter` allocates a new array and `sort` sorts in
  place. The classification is run over a small heap of arrays so that the
  fetched array can be observed afterwards.
* Asynchronous requests are modelled by their outcomes, given as input, and
  the handler returns the list of effects it performs with the final state.
-/

namespace Board

/-! ## Data model -/

/-- An identifier value: a number (`1`) or a string (`"1"`). -/
inductive Ident where
  | num (n : Int)
  | str (s : String)
  deriving DecidableEq, Repr

/-- The string JavaScript coerces a (possibly absent) identifier to when it is
used as a property key (`clientMap[c.id]`) or inside a template literal. -/
def toKey : Option Ident → String
  | none => "undefined"
  | some (Ident.num n) => toString n
  | some (Ident.str s) => s

/-- A card object: `id`, `status`, `priority` (each possibly absent) and the
pass-through properties `rest` (name, description, ...). -/
structure Card where
  id : Option Ident
  status : Option String
  priority : Option Int
  rest : List (String × String)
  deriving DecidableEq, Repr

/-- The value of `this.state.clients`: the three lanes. -/
structure Clients where
  backlog : List Card
  inProgress : List Card
  complete : List Card
  deriving DecidableEq, Repr

/-- An update record `{ id, status, priority }` built by `buildUpdates`. -/
structure Update where
  id : Option Ident
  status : String
  priority : Nat
  deriving DecidableEq, Repr

/-- The three lanes, used to state properties lane by lane. -/
inductive Lane where
  | backlog
  | inProgress
  | complete
  deriving DecidableEq, Repr

/-- The status string the source writes for a lane. -/
def Lane.status : Lane → String
  | Lane.backlog => "backlog"
  | Lane.inProgress => "in-progress"
  | Lane.complete => "complete"

/-- The list of cards held by a lane of the board. -/
def Clients.lane (b : Clients) : Lane → List Card
  | Lane.backlog => b.backlog
  | Lane.inProgress => b.inProgress
  | Lane.complete => b.complete

/-- All cards of a board: `[...backlog, ...inProgress, ...complete]`. -/
def allClients (state : Clients) : List Card :=
  state.backlog ++ state.inProgress ++ state.complete

/-! ## `buildUpdates` -/

/-- One `lane.forEach((c, idx) => updates.push(record))` loop of
`buildUpdates`, started at index `idx` with the records pushed so far. -/
def pushLane (status : String) : List Card → Nat → List Update → List Update
  | [], _, updates => updates
  | c :: cs, idx, updates =>
    pushLane status cs (idx + 1)
      (updates ++ [{ id := c.id, status := status, priority := idx + 1 }])

/-- The method `buildUpdates(nextClients)`. -/
def buildUpdates (nextClients : Clients) : List Update :=
  let updates : List Update := []
  let updates := pushLane "backlog" nextClients.backlog 0 updates
  let updates := pushLane "in-progress" nextClients.inProgress 0 updates
  let updates := pushLane "complete" nextClients.complete 0 updates
  updates

/-- The records one lane contributes, in lane order, numbered from `idx + 1`. -/
def laneRecords (status : String) : List Card → Nat → List Update
  | [], _ => []
  | c :: cs, idx =>
    { id := c.id, status := status, priority := idx + 1 } :: laneRecords status cs (idx + 1)


/-! ## `syncStateWithDOM` -/

/-- The three lane containers `this.swimlanes.*.current`: `none` when the ref
is not attached, otherwise the `dataset.id` strings of the container's
children in their current order. -/
structure Swimlanes where
  backlog : Option (List String)
  inProgress : Option (List String)
  complete : Option (List String)
  deriving DecidableEq, Repr

/-- The object `clientMap` after `allClients.forEach(c => clientMap[c.id] = c)`,
as the lookup `clientMap[k]` sees it: a later card with the same key overwrites
an earlier one, and a key some card has yields that card (for the key
`__proto__` too, where the assignment sets the prototype and the lookup reads
it back). A key no card has yields `none`, standing for a value with nothing
to spread; this is what the source yields provided no card has the key
`__proto__`, the one assignment after which absent keys resolve to the
properties of a card. -/
def clientMap (cards : List Card) : String → Option Card :=
  cards.foldl (fun m c => fun k => if k = toKey c.id then some c else m k) (fun _ => none)

/-- The helper `getIdsFromLane(laneRef)`. -/
def getIdsFromLane (laneRef : Option (List String)) : List String :=
  match laneRef with
  | none => []
  | some children => children

/-- The object literal `{ ...clientMap[id], status }`: spreading `undefined`
copies nothing, so an unknown key gives an object with `status` alone. -/
def spreadWithStatus (found : Option Card) (status : String) : Card :=
  match found with
  | some c => { c with status := some status }
  | none => { id := none, status := some status, priority := none, rest := [] }

/-- The method `syncStateWithDOM()`, reading `this.state.clients` and
`this.swimlanes`. -/
def syncStateWithDOM (state : Clients) (swimlanes : Swimlanes) : Clients :=
  let cm := clientMap (allClients state)
  let backlogIds := getIdsFromLane swimlanes.backlog
  let inProgressIds := getIdsFromLane swimlanes.inProgress
  let completeIds := getIdsFromLane swimlanes.complete
  { backlog := backlogIds.map (fun id => spreadWithStatus (cm id) "backlog")
    inProgress := inProgressIds.map (fun id => spreadWithStatus (cm id) "in-progress")
    complete := completeIds.map (fun id => spreadWithStatus (cm id) "complete") }

/-- The view sequence of a lane, as `syncStateWithDOM` reads it. -/
def Swimlanes.ids (sw : Swimlanes) : Lane → List String
  | Lane.backlog => getIdsFromLane sw.backlog
  | Lane.inProgress => getIdsFromLane sw.inProgress
  | Lane.complete => getIdsFromLane sw.complete

/-- All identifiers shown by the view, lane after lane. -/
def Swimlanes.allIds (sw : Swimlanes) : List String :=
  getIdsFromLane sw.backlog ++ getIdsFromLane sw.inProgress ++ getIdsFromLane sw.complete

/-! ## Classification step of `loadClientsFromApi` -/

/-- The comparator `(a, b) => a.priority - b.priority`; a missing priority
makes the difference `NaN`, which `sort` treats as `0`. -/
def comparePriority (a b : Card) : Int :=
  match a.priority, b.priority with
  | some x, some y => x - y
  | _, _ => 0

/-- The result of `Array.prototype.sort(cmp)`: a stable sort placing `a` before
`b` when `cmp a b < 0`. -/
def jsSort (cmp : Card → Card → Int) (l : List Card) : List Card :=
  l.insertionSort (fun a b => cmp a b ≤ 0)

/-- The arrays alive during the classification, by address. -/
abbrev Heap := List (List Card)

/-- The call `arr.filter(p)`: allocates a new array, returns its address. -/
def Heap.filter (h : Heap) (arr : Nat) (p : Card → Bool) : Heap × Nat :=
  (h ++ [(h.getD arr []).filter p], h.length)

/-- The call `arr.sort(cmp)`: sorts the array in place, returns its address. -/
def Heap.sort (h : Heap) (arr : Nat) (cmp : Card → Card → Int) : Heap × Nat :=
  (h.set arr (jsSort cmp (h.getD arr [])), arr)

/-- What `loadClientsFromApi` leaves behind: the fetched array `all` as it is
after the classification, and the new `state.clients`. -/
structure Loaded where
  all : List Card
  clients : Clients
  deriving DecidableEq, Repr

/-- The classification step of `loadClientsFromApi` (lines 28-40), run on the
fetched array `all`, which sits at address `0`. -/
def loadClientsFromApi (all : List Card) : Loaded :=
  let h : Heap := [all]
  let (h, a) := Heap.filter h 0 (fun c => decide (c.status = some "backlog"))
  let (h, backlog) := Heap.sort h a comparePriority
  let (h, a) := Heap.filter h 0 (fun c => decide (c.status = some "in-progress"))
  let (h, inProgress) := Heap.sort h a comparePriority
  let (h, a) := Heap.filter h 0 (fun c => decide (c.status = some "complete"))
  let (h, complete) := Heap.sort h a comparePriority
  { all := h.getD 0 []
    clients :=
      { backlog := h.getD backlog []
        inProgress := h.getD inProgress []
        complete := h.getD complete [] } }

/-- A status is recognized when it is one of the three lane statuses. -/
def recognized (c : Card) : Bool :=
  decide (c.status = some "backlog") || decide (c.status = some "in-progress")
    || decide (c.status = some "complete")

/-! ## `persistBoard` and the drop handler -/

/-- How a `fetch` promise settles: it resolves with a response of some HTTP
status (also for 4xx and 5xx), or it rejects (network error). -/
inductive FetchResult where
  | resolved (httpStatus : Nat)
  | rejected
  deriving DecidableEq, Repr

/-- The observable actions of the drop handler. -/
inductive Effect where
  | logContainers
  | cancelDrake
  | setState (clients : Clients)
  | put (key : String) (status : String) (priority : Nat)
  | getClients
  | logSaveFailure
  deriving DecidableEq, Repr

/-- The request `fetch('/api/v1/clients/' + u.id, { method: 'PUT', ... })`. -/
def putRequest (u : Update) : Effect :=
  Effect.put (toKey u.id) u.status u.priority

/-- The promise `Promise.all(promises)` fulfils when every promise resolves and
rejects when one of them rejects. -/
def promiseAll (results : List FetchResult) : Bool :=
  results.all (fun r => decide (r ≠ FetchResult.rejected))

/-- The method `persistBoard(nextClients)`: every request is issued by
`updates.map` before `Promise.all` is awaited; request number `i` settles as
`outcome i`. Returns the requests issued and whether the method completed
(`true`) or threw (`false`). -/
def persistBoard (nextClients : Clients) (outcome : Nat → FetchResult) : List Effect × Bool :=
  let updates := buildUpdates nextClients
  let requests := updates.map putRequest
  let results := (List.range updates.length).map outcome
  (requests, promiseAll results)

/-- The handler registered by `this.drake.on('drop', ...)`. `outcome` settles
the update requests; `reload` is what the reload fetch yields (`none` when
it fails). Returns the effects in order and the final `state.clients`. -/
def dropHandler (state : Clients) (swimlanes : Swimlanes) (outcome : Nat → FetchResult)
    (reload : Option (List Card)) : List Effect × Clients :=
  let nextClients := syncStateWithDOM state swimlanes
  let before := [Effect.logContainers, Effect.cancelDrake, Effect.setState nextClients]
  let (requests, saved) := persistBoard nextClients outcome
  if saved then
    match reload with
    | some all =>
      let loaded := (loadClientsFromApi all).clients
      (before ++ requests ++ [Effect.getClients, Effect.setState loaded], loaded)
    | none =>
      (before ++ requests ++ [Effect.getClients, Effect.logSaveFailure], nextClients)
  else
    (before ++ requests ++ [Effect.logSaveFailure], nextClients)

/-! ## Simulated remote store -/

/-- Modelled from the spec: the simulated remote store of the round trip, which
is not part of the source. It applies one update record to the card whose id
(as it appears in the request URL) is the record's, setting `status` and
`priority` and keeping every other attribute. -/
def storeApply (c : Card) (u : Update) : Card :=
  if toKey c.id = toKey u.id then
    { c with status := some u.status, priority := some (u.priority : Int) }
  else c

/-- Modelled from the spec: the simulated remote store applying the update
records one after the other to its card collection. -/
def storeApplyAll (updates : List Update) (store : List Card) : List Card :=
  updates.foldl (fun s u => s.map (fun c => storeApply c u)) store

/-- The attributes of a card the store never changes: id and pass-through. -/
def Card.core (c : Card) : Option Ident × List (String × String) :=
  (c.id, c.rest)

/-- What the round trip observes of a card: id, status and pass-through. -/
def Card.observed (c : Card) : Option Ident × Option String × List (String × String) :=
  (c.id, c.status, c.rest)

/-! ## The rendered view and a drag -/

/-- The view as `render()` shows the board: each lane container holds one
child per card of the lane, in lane order, carrying the card's id. -/
def viewOf (b : Clients) : Swimlanes :=
  { backlog := some (b.backlog.map (fun c => toKey c.id))
    inProgress := some (b.inProgress.map (fun c => toKey c.id))
    complete := some (b.complete.map (fun c => toKey c.id)) }

/-- Replaces the children of one lane container. -/
def Swimlanes.setLane (sw : Swimlanes) (lane : Lane) (ids : List String) : Swimlanes :=
  match lane with
  | Lane.backlog => { sw with backlog := some ids }
  | Lane.inProgress => { sw with inProgress := some ids }
  | Lane.complete => { sw with complete := some ids }

/-- The mutation the drag library makes on a drop: the child at position `i`
of lane `src` is taken out and put at position `k` of lane `dst`. -/
def dragCard (sw : Swimlanes) (src : Lane) (i : Nat) (dst : Lane) (k : Nat) : Swimlanes :=
  match (sw.ids src)[i]? with
  | none => sw
  | some v =>
    let sw1 := sw.setLane src ((sw.ids src).take i ++ (sw.ids src).drop (i + 1))
    sw1.setLane dst ((sw1.ids dst).take k ++ v :: (sw1.ids dst).drop k)

/-- A card with its status overwritten, every other attribute kept. -/
def Card.withStatus (status : String) (c : Card) : Card :=
  Card.mk c.id (some status) c.priority c.rest

/-- Tells the update requests among the effects. -/
def Effect.isPut : Effect → Bool
  | Effect.put _ _ _ => true
  | _ => false

/-- The cards the store holds for one lane once every update record has been
applied: the lane's cards in lane order, each with the lane's status and the
priority of its position, numbered from `idx + 1`. -/
def laneStored (status : String) : List Card → Nat → List Card
  | [], _ => []
  | r :: rs, idx =>
    Card.mk r.id (some status) (some ((idx + 1 : Nat) : Int)) r.rest
      :: laneStored status rs (idx + 1)

/-! ## Lemmas on `buildUpdates` -/

theorem pushLane_eq (status : String) (l : List Card) (idx : Nat) (acc : List Update) :
    pushLane status l idx acc = acc ++ laneRecords status l idx := by
  induction l generalizing idx acc with
  | nil => simp [pushLane, laneRecords]
  | cons c cs ih => simp [pushLane, laneRecords, ih]

theorem buildUpdates_eq (b : Clients) :
    buildUpdates b =
      laneRecords "backlog" b.backlog 0 ++ laneRecords "in-progress" b.inProgress 0
        ++ laneRecords "complete" b.complete 0 := by
  simp [buildUpdates, pushLane_eq]

theorem length_laneRecords (status : String) (l : List Card) (idx : Nat) :
    (laneRecords status l idx).length = l.length := by
  induction l generalizing idx with
  | nil => rfl
  | cons c cs ih => simp [laneRecords, ih]

theorem getElem?_laneRecords (status : String) (l : List Card) (idx i : Nat) :
    (laneRecords status l idx)[i]? =
      (l[i]?).map (fun c => { id := c.id, status := status, priority := idx + i + 1 }) := by
  induction l generalizing idx i with
  | nil => simp [laneRecords]
  | cons c cs ih =>
    cases i with
    | zero => simp [laneRecords]
    | succ j =>
      simp only [laneRecords, List.getElem?_cons_succ, ih]
      congr 1
      funext c
      congr 1
      omega

theorem map_priority_laneRecords (status : String) (l : List Card) (idx : Nat) :
    (laneRecords status l idx).map (fun u => u.priority) = List.range' (idx + 1) l.length := by
  induction l generalizing idx with
  | nil => rfl
  | cons c cs ih => simp [laneRecords, ih, List.range'_succ]

theorem map_id_laneRecords (status : String) (l : List Card) (idx : Nat) :
    (laneRecords status l idx).map (fun u => u.id) = l.map (fun c => c.id) := by
  induction l generalizing idx with
  | nil => rfl
  | cons c cs ih => simp [laneRecords, ih]

theorem status_of_mem_laneRecords {status : String} {l : List Card} {idx : Nat} {u : Update}
    (h : u ∈ laneRecords status l idx) : u.status = status := by
  induction l generalizing idx with
  | nil => simp [laneRecords] at h
  | cons c cs ih =>
    simp only [laneRecords, List.mem_cons] at h
    rcases h with h | h
    · rw [h]
    · exact ih h

theorem filter_laneRecords_self (status : String) (l : List Card) (idx : Nat) :
    (laneRecords status l idx).filter (fun u => decide (u.status = status)) =
      laneRecords status l idx := by
  rw [List.filter_eq_self]
  intro u hu
  simp [status_of_mem_laneRecords hu]

theorem filter_laneRecords_ne {s t : String} (hst : s ≠ t) (l : List Card) (idx : Nat) :
    (laneRecords s l idx).filter (fun u => decide (u.status = t)) = [] := by
  rw [List.filter_eq_nil_iff]
  intro u hu
  simp [status_of_mem_laneRecords hu, hst]

theorem filter_buildUpdates (b : Clients) (lane : Lane) :
    (buildUpdates b).filter (fun u => decide (u.status = lane.status)) =
      laneRecords lane.status (b.lane lane) 0 := by
  rw [buildUpdates_eq]
  cases lane <;>
    simp only [Lane.status, Clients.lane, List.filter_append, filter_laneRecords_self] <;>
    rw [filter_laneRecords_ne (by decide), filter_laneRecords_ne (by decide)] <;>
    simp

/-! ## Theorems on `buildUpdates` -/

/-- C1: `buildUpdates` emits exactly one record per card of the board, and for
each lane the records carrying that lane's status are, in output order, one
per card of the lane in lane order: their priorities are exactly
`1, 2, ..., count` and the record at position `i` has the id of the lane's card
at position `i`, the lane's status and priority `i + 1`. -/
theorem buildUpdates_one_record_per_card (b : Clients) :
    (buildUpdates b).length = b.backlog.length + b.inProgress.length + b.complete.length ∧
    ∀ lane : Lane,
      ((buildUpdates b).filter (fun u => decide (u.status = lane.status))).length
          = (b.lane lane).length ∧
      ((buildUpdates b).filter (fun u => decide (u.status = lane.status))).map
          (fun u => u.priority) = List.range' 1 (b.lane lane).length ∧
      ∀ i : Nat, ((buildUpdates b).filter (fun u => decide (u.status = lane.status)))[i]? =
          ((b.lane lane)[i]?).map
            (fun c => { id := c.id, status := lane.status, priority := i + 1 }) := by
  refine ⟨?_, fun lane => ?_⟩
  · simp only [buildUpdates_eq, List.length_append, length_laneRecords]
  · rw [filter_buildUpdates]
    refine ⟨length_laneRecords _ _ _, ?_, fun i => ?_⟩
    · simpa using map_priority_laneRecords lane.status (b.lane lane) 0
    · simpa using getElem?_laneRecords lane.status (b.lane lane) 0 i

/-! ## Lemmas on the classification -/

theorem loadClientsFromApi_clients (all : List Card) :
    (loadClientsFromApi all).clients =
      { backlog := jsSort comparePriority
          (all.filter (fun c => decide (c.status = some "backlog")))
        inProgress := jsSort comparePriority
          (all.filter (fun c => decide (c.status = some "in-progress")))
        complete := jsSort comparePriority
          (all.filter (fun c => decide (c.status = some "complete"))) } :=
  rfl

theorem loadClientsFromApi_all (all : List Card) : (loadClientsFromApi all).all = all :=
  rfl

theorem lane_loadClientsFromApi (all : List Card) (lane : Lane) :
    (loadClientsFromApi all).clients.lane lane =
      jsSort comparePriority (all.filter (fun c => decide (c.status = some lane.status))) := by
  cases lane <;> rfl

theorem jsSort_perm (cmp : Card → Card → Int) (l : List Card) : (jsSort cmp l).Perm l :=
  List.perm_insertionSort _ l

theorem lane_status_injective {a b : Lane} (h : a.status = b.status) : a = b := by
  cases a <;> cases b <;> first | rfl | (exact absurd h (by decide))

theorem recognized_iff (c : Card) : recognized c = true ↔ ∃ lane : Lane, c.status = some lane.status := by
  constructor
  · intro h
    simp only [recognized, Bool.or_eq_true, decide_eq_true_eq] at h
    rcases h with (h | h) | h
    · exact ⟨Lane.backlog, h⟩
    · exact ⟨Lane.inProgress, h⟩
    · exact ⟨Lane.complete, h⟩
  · rintro ⟨lane, h⟩
    cases lane <;> simp [recognized, h, Lane.status]

theorem filter_lanes_perm (all : List Card) :
    (all.filter (fun c => decide (c.status = some "backlog"))
      ++ all.filter (fun c => decide (c.status = some "in-progress"))
      ++ all.filter (fun c => decide (c.status = some "complete"))).Perm
      (all.filter recognized) := by
  induction all with
  | nil => simp
  | cons c cs ih =>
    by_cases hb : c.status = some "backlog"
    · have hr : recognized c = true := by simp [recognized, hb]
      simp only [List.filter_cons, hb, hr, decide_True, if_true]
      simpa using ih.cons c
    · by_cases hi : c.status = some "in-progress"
      · have hr : recognized c = true := by simp [recognized, hi]
        simp only [List.filter_cons, hi, hr, decide_True, if_true]
        simp only [show decide (some "in-progress" = some "backlog") = false by decide]
        refine List.Perm.trans ?_ (ih.cons c)
        simp only [Bool.false_eq_true, if_false, List.append_assoc]
        exact (List.perm_middle).trans (List.Perm.refl _)
      · by_cases hc : c.status = some "complete"
        · have hr : recognized c = true := by simp [recognized, hc]
          simp only [List.filter_cons, hc, hr, decide_True, if_true]
          simp only [show decide (some "complete" = some "backlog") = false by decide,
            show decide (some "complete" = some "in-progress") = false by decide]
          refine List.Perm.trans ?_ (ih.cons c)
          simp only [Bool.false_eq_true, if_false]
          exact List.perm_middle
        · have hr : recognized c = false := by simp [recognized, hb, hi, hc]
          simpa [List.filter_cons, hb, hi, hc, hr] using ih

/-! ## Theorems on the classification -/

/-- C2: the three lanes produced by the classification step of
`loadClientsFromApi` partition the recognized-status cards of the input: as a
multiset their concatenation is the recognized-status cards; every card of a
lane has that lane's status; a card with a lane's status occurs in that lane
as often as in the input and in no other lane; and a card with any other
status is in no lane. -/
theorem classification_partitions_input (all : List Card) :
    ((loadClientsFromApi all).clients.backlog ++ (loadClientsFromApi all).clients.inProgress
        ++ (loadClientsFromApi all).clients.complete).Perm (all.filter recognized) ∧
    (∀ lane : Lane, ∀ c ∈ (loadClientsFromApi all).clients.lane lane,
        c.status = some lane.status) ∧
    (∀ lane : Lane, ∀ c : Card, c.status = some lane.status →
        ((loadClientsFromApi all).clients.lane lane).count c = all.count c ∧
        ∀ other : Lane, other ≠ lane → c ∉ (loadClientsFromApi all).clients.lane other) ∧
    (∀ c : Card, recognized c = false →
        ∀ lane : Lane, c ∉ (loadClientsFromApi all).clients.lane lane) := by
  have hmem : ∀ lane : Lane, ∀ c ∈ (loadClientsFromApi all).clients.lane lane,
      c ∈ all ∧ c.status = some lane.status := by
    intro lane c hc
    rw [lane_loadClientsFromApi] at hc
    have := (jsSort_perm _ _).mem_iff.mp hc
    simpa using this
  refine ⟨?_, fun lane c hc => (hmem lane c hc).2, ?_, ?_⟩
  · rw [loadClientsFromApi_clients]
    exact (((jsSort_perm _ _).append (jsSort_perm _ _)).append (jsSort_perm _ _)).trans
      (filter_lanes_perm all)
  · intro lane c hc
    refine ⟨?_, fun other hne hin => ?_⟩
    · rw [lane_loadClientsFromApi, (jsSort_perm _ _).count_eq, List.count_filter]
      simpa using hc
    · have h2 := (hmem other c hin).2
      rw [hc] at h2
      exact hne (lane_status_injective (Option.some.inj h2)).symm
  · intro c hc lane hin
    have h2 := (hmem lane c hin).2
    have : recognized c = true := (recognized_iff c).mpr ⟨lane, h2⟩
    rw [hc] at this
    exact Bool.false_ne_true this

/-- C6: for a fetched collection whose cards all have an integer priority,
each lane produced by the classification step of `loadClientsFromApi` is
sorted ascending by priority; two cards of a lane with equal priority keep the
relative order they have in the input; and the fetched collection is the same
after the classification as before. -/
theorem classification_sorted_stable (all : List Card)
    (hint : ∀ c ∈ all, ∃ p : Int, c.priority = some p) :
    (∀ lane : Lane, ((loadClientsFromApi all).clients.lane lane).Pairwise
        (fun a b => ∃ x y : Int, a.priority = some x ∧ b.priority = some y ∧ x ≤ y)) ∧
    (∀ lane : Lane, ∀ a b : Card, a.status = some lane.status → b.status = some lane.status →
        a.priority = b.priority → List.Sublist [a, b] all →
        List.Sublist [a, b] ((loadClientsFromApi all).clients.lane lane)) ∧
    (loadClientsFromApi all).all = all := by
  refine ⟨fun lane => ?_, fun lane a b ha hb hab hsub => ?_, rfl⟩
  · rw [lane_loadClientsFromApi]
    set l := all.filter (fun c => decide (c.status = some lane.status)) with hl
    have hl_int : ∀ c ∈ l, ∃ p : Int, c.priority = some p := fun c hc =>
      hint c (List.mem_of_mem_filter hc)
    have hmap : (jsSort comparePriority l).map (fun c => c.priority.getD 0) =
        (l.map (fun c => c.priority.getD 0)).insertionSort (fun x y : Int => x ≤ y) := by
      unfold jsSort
      apply List.map_insertionSort
      intro a ha b hb
      obtain ⟨x, hx⟩ := hl_int a ha
      obtain ⟨y, hy⟩ := hl_int b hb
      simp [comparePriority, hx, hy]
    have hsorted : ((jsSort comparePriority l).map (fun c => c.priority.getD 0)).Sorted
        (fun x y : Int => x ≤ y) := by
      rw [hmap]
      exact List.sorted_insertionSort _ _
    have hpw := List.pairwise_map.mp hsorted
    refine hpw.imp_of_mem ?_
    intro a b ha hb hab
    obtain ⟨x, hx⟩ := hl_int a ((jsSort_perm _ _).mem_iff.mp ha)
    obtain ⟨y, hy⟩ := hl_int b ((jsSort_perm _ _).mem_iff.mp hb)
    refine ⟨x, y, hx, hy, ?_⟩
    simpa [hx, hy] using hab
  · rw [lane_loadClientsFromApi]
    unfold jsSort
    apply List.pair_sublist_insertionSort
    · obtain ⟨x, hx⟩ := hint a (hsub.subset (by simp))
      have hy : b.priority = some x := by rw [← hab, hx]
      simp [comparePriority, hx, hy]
    · have := hsub.filter (fun c => decide (c.status = some lane.status))
      simpa [List.filter_cons, ha, hb] using this

/-- Witness for C6 on a fetched collection of three cards. -/
theorem classification_sorted_stable_witness :
    (∀ c ∈ [Card.mk (some (Ident.num 1)) (some "backlog") (some 2) [],
            Card.mk (some (Ident.num 2)) (some "backlog") (some 1) [],
            Card.mk (some (Ident.num 3)) (some "complete") (some 1) []],
        ∃ p : Int, c.priority = some p) ∧
    (loadClientsFromApi
        [Card.mk (some (Ident.num 1)) (some "backlog") (some 2) [],
         Card.mk (some (Ident.num 2)) (some "backlog") (some 1) [],
         Card.mk (some (Ident.num 3)) (some "complete") (some 1) []]).all =
      [Card.mk (some (Ident.num 1)) (some "backlog") (some 2) [],
       Card.mk (some (Ident.num 2)) (some "backlog") (some 1) [],
       Card.mk (some (Ident.num 3)) (some "complete") (some 1) []] :=
  ⟨by simp, (classification_sorted_stable _ (by simp)).2.2⟩

/-! ## Lemmas on `syncStateWithDOM` -/

theorem foldl_clientMap (cards : List Card) (init : String → Option Card) (k : String) :
    cards.foldl (fun m c => fun k => if k = toKey c.id then some c else m k) init k =
      ((cards.reverse.find? (fun c => decide (toKey c.id = k))).or (init k)) := by
  induction cards generalizing init with
  | nil => simp
  | cons c cs ih =>
    rw [List.foldl_cons, ih, List.reverse_cons, List.find?_append]
    by_cases h : k = toKey c.id
    · subst h
      cases hf : List.find? (fun d => decide (toKey d.id = toKey c.id)) cs.reverse <;> simp
    · have h2 : ¬ toKey c.id = k := fun e => h e.symm
      cases hf : List.find? (fun d => decide (toKey d.id = k)) cs.reverse <;> simp [h, h2]

/-- The lookup `clientMap[k]` finds the last card of the list whose key is `k`. -/
theorem clientMap_eq_find (cards : List Card) (k : String) :
    clientMap cards k = cards.reverse.find? (fun c => decide (toKey c.id = k)) := by
  unfold clientMap
  rw [foldl_clientMap]
  simp

theorem clientMap_some {cards : List Card} {k : String} {c : Card}
    (h : clientMap cards k = some c) : c ∈ cards ∧ toKey c.id = k := by
  rw [clientMap_eq_find] at h
  have h1 := List.mem_of_find?_eq_some h
  have h2 := List.find?_some h
  exact ⟨List.mem_reverse.mp h1, by simpa using h2⟩

theorem clientMap_isSome {cards : List Card} {k : String}
    (h : ∃ c ∈ cards, toKey c.id = k) : ∃ c, clientMap cards k = some c := by
  obtain ⟨c, hc, hk⟩ := h
  rw [clientMap_eq_find]
  cases hf : cards.reverse.find? (fun c => decide (toKey c.id = k)) with
  | some d => exact ⟨d, rfl⟩
  | none =>
    rw [List.find?_eq_none] at hf
    have := hf c (List.mem_reverse.mpr hc)
    simp [hk] at this

theorem clientMap_none {cards : List Card} {k : String}
    (h : ∀ c ∈ cards, toKey c.id ≠ k) : clientMap cards k = none := by
  rw [clientMap_eq_find, List.find?_eq_none]
  intro c hc
  simpa using h c (List.mem_reverse.mp hc)

theorem eq_of_key_eq {cards : List Card} (hnodup : (cards.map (fun c => toKey c.id)).Nodup)
    {c d : Card} (hc : c ∈ cards) (hd : d ∈ cards) (h : toKey c.id = toKey d.id) : c = d :=
  List.inj_on_of_nodup_map hnodup hc hd h

theorem clientMap_of_mem {cards : List Card} (hnodup : (cards.map (fun c => toKey c.id)).Nodup)
    {c : Card} (hc : c ∈ cards) : clientMap cards (toKey c.id) = some c := by
  obtain ⟨d, hd⟩ := clientMap_isSome ⟨c, hc, rfl⟩
  have := clientMap_some hd
  rw [hd, eq_of_key_eq hnodup this.1 hc this.2]

theorem lane_syncStateWithDOM (state : Clients) (sw : Swimlanes) (lane : Lane) :
    (syncStateWithDOM state sw).lane lane =
      (sw.ids lane).map
        (fun v => spreadWithStatus (clientMap (allClients state) v) lane.status) := by
  cases lane <;> rfl

theorem allClients_eq_lanes (b : Clients) :
    allClients b = b.lane Lane.backlog ++ b.lane Lane.inProgress ++ b.lane Lane.complete :=
  rfl

theorem allIds_eq_lanes (sw : Swimlanes) :
    sw.allIds = sw.ids Lane.backlog ++ sw.ids Lane.inProgress ++ sw.ids Lane.complete :=
  rfl

theorem id_spreadWithStatus (found : Option Card) (status : String) :
    (spreadWithStatus found status).id = found.bind (fun c => c.id) := by
  cases found <;> rfl

theorem map_id_allClients_sync (state : Clients) (sw : Swimlanes) :
    (allClients (syncStateWithDOM state sw)).map (fun c => c.id) =
      sw.allIds.map (fun v => (clientMap (allClients state) v).bind (fun c => c.id)) := by
  simp [allClients_eq_lanes, allIds_eq_lanes, lane_syncStateWithDOM, id_spreadWithStatus,
    Function.comp_def]

theorem mem_lanes_iff {α : Type} (f : Lane → List α) (x : α) :
    x ∈ f Lane.backlog ++ f Lane.inProgress ++ f Lane.complete ↔ ∃ lane, x ∈ f lane := by
  simp only [List.mem_append]
  constructor
  · rintro ((h | h) | h)
    · exact ⟨_, h⟩
    · exact ⟨_, h⟩
    · exact ⟨_, h⟩
  · rintro ⟨lane, h⟩
    cases lane
    · exact Or.inl (Or.inl h)
    · exact Or.inl (Or.inr h)
    · exact Or.inr h

theorem lanes_disjoint_of_nodup {α : Type} (f : Lane → List α)
    (h : (f Lane.backlog ++ f Lane.inProgress ++ f Lane.complete).Nodup)
    {a b : Lane} (hab : a ≠ b) {x : α} (ha : x ∈ f a) : x ∉ f b := by
  rw [List.nodup_append, List.nodup_append] at h
  obtain ⟨⟨_, _, h12⟩, _, h3⟩ := h
  intro hb
  cases a <;> cases b <;> first
    | exact hab rfl
    | exact h12 ha hb
    | exact h12 hb ha
    | exact h3 (List.mem_append_left _ ha) hb
    | exact h3 (List.mem_append_right _ ha) hb
    | exact h3 (List.mem_append_left _ hb) ha
    | exact h3 (List.mem_append_right _ hb) ha

theorem lane_nodup_of_nodup {α : Type} (f : Lane → List α)
    (h : (f Lane.backlog ++ f Lane.inProgress ++ f Lane.complete).Nodup) (a : Lane) :
    (f a).Nodup := by
  rw [List.nodup_append, List.nodup_append] at h
  obtain ⟨⟨h1, h2, _⟩, h3, _⟩ := h
  cases a
  · exact h1
  · exact h2
  · exact h3

theorem length_filter_eq_one {l : List Card} {x : Option Ident}
    (hnd : (l.map (fun d => d.id)).Nodup) (hx : x ∈ l.map (fun d => d.id)) :
    (l.filter (fun d => decide (d.id = x))).length = 1 := by
  induction l with
  | nil => simp at hx
  | cons a t ih =>
    rw [List.map_cons, List.nodup_cons] at hnd
    by_cases ha : a.id = x
    · have hnot : ∀ d ∈ t, ¬ d.id = x := by
        intro d hd hdx
        exact hnd.1 (List.mem_map.mpr ⟨d, hd, hdx.trans ha.symm⟩)
      have : t.filter (fun d => decide (d.id = x)) = [] := by
        rw [List.filter_eq_nil_iff]
        intro d hd
        simpa using hnot d hd
      simp [List.filter_cons, ha, this]
    · have hx2 : x ∈ t.map (fun d => d.id) := by
        rcases List.mem_cons.mp hx with h | h
        · exact absurd h.symm ha
        · exact h
      simp [List.filter_cons, ha, ih hnd.2 hx2]

/-! ## Theorems on `syncStateWithDOM` -/

/-- C3: when every identifier of the view is the key of a card of the
last-known board, each lane returned by `syncStateWithDOM` has the length and
the identifier order of that lane's view sequence, and the card at each
position is the last-known card with that identifier (the last one, should
several share it) with `status` set to the lane's status and `id`, `priority`
and the pass-through attributes unchanged. -/
theorem syncStateWithDOM_overwrites_status_only (state : Clients) (sw : Swimlanes)
    (hpresent : ∀ lane : Lane, ∀ v ∈ sw.ids lane, ∃ c ∈ allClients state, toKey c.id = v) :
    ∀ lane : Lane,
      ((syncStateWithDOM state sw).lane lane).length = (sw.ids lane).length ∧
      ((syncStateWithDOM state sw).lane lane).map (fun c => toKey c.id) = sw.ids lane ∧
      ∀ (i : Nat) (v : String), (sw.ids lane)[i]? = some v →
        ∃ c : Card, c ∈ allClients state ∧ toKey c.id = v ∧
          (allClients state).reverse.find? (fun d => decide (toKey d.id = v)) = some c ∧
          ((syncStateWithDOM state sw).lane lane)[i]? =
            some (Card.mk c.id (some lane.status) c.priority c.rest) := by
  intro lane
  rw [lane_syncStateWithDOM]
  refine ⟨by simp, ?_, ?_⟩
  · rw [List.map_map]
    conv_rhs => rw [← List.map_id (sw.ids lane)]
    apply List.map_congr_left
    intro v hv
    obtain ⟨c, hc⟩ := clientMap_isSome (hpresent lane v hv)
    simp [hc, spreadWithStatus, (clientMap_some hc).2]
  · intro i v hv
    obtain ⟨c, hc⟩ := clientMap_isSome (hpresent lane v (List.getElem?_mem hv))
    refine ⟨c, (clientMap_some hc).1, (clientMap_some hc).2, ?_, ?_⟩
    · rw [← clientMap_eq_find]
      exact hc
    · simp [hv, hc, spreadWithStatus]

/-- Witness for C3: the board `backlog = [X, Y]` with `Y` shown in the second
lane. -/
theorem syncStateWithDOM_overwrites_status_only_witness :
    ((syncStateWithDOM
        ⟨[Card.mk (some (Ident.str "X")) (some "backlog") (some 1) [("name", "x")],
          Card.mk (some (Ident.str "Y")) (some "backlog") (some 2) [("name", "y")]], [], []⟩
        ⟨some ["X"], some ["Y"], some []⟩).lane Lane.inProgress).map (fun c => toKey c.id)
      = ["Y"] :=
  (syncStateWithDOM_overwrites_status_only
    ⟨[Card.mk (some (Ident.str "X")) (some "backlog") (some 1) [("name", "x")],
      Card.mk (some (Ident.str "Y")) (some "backlog") (some 2) [("name", "y")]], [], []⟩
    ⟨some ["X"], some ["Y"], some []⟩
    (by
      intro lane v hv
      cases lane
      · have : v = "X" := by simpa [Swimlanes.ids, getIdsFromLane] using hv
        subst this
        exact ⟨_, List.mem_cons_self _ _, rfl⟩
      · have : v = "Y" := by simpa [Swimlanes.ids, getIdsFromLane] using hv
        subst this
        exact ⟨_, List.mem_cons_of_mem _ (List.mem_cons_self _ _), rfl⟩
      · simp [Swimlanes.ids, getIdsFromLane] at hv)
    Lane.inProgress).2.1

/-- C4: when the keys of the board's identifiers are pairwise distinct and the
view shows a permutation of them, every identifier of the last-known board
occurs in the board returned by `syncStateWithDOM` in exactly one lane and
exactly once there, and the identifiers of the returned board are the
identifiers of the last-known board. -/
theorem syncStateWithDOM_keeps_every_identifier (state : Clients) (sw : Swimlanes)
    (hnodup : ((allClients state).map (fun c => toKey c.id)).Nodup)
    (hperm : sw.allIds.Perm ((allClients state).map (fun c => toKey c.id))) :
    (∀ c ∈ allClients state, ∃ lane : Lane,
        (((syncStateWithDOM state sw).lane lane).filter
          (fun d => decide (d.id = c.id))).length = 1 ∧
        ∀ other : Lane, other ≠ lane →
          c.id ∉ ((syncStateWithDOM state sw).lane other).map (fun d => d.id)) ∧
    (∀ ident : Option Ident,
        ident ∈ (allClients (syncStateWithDOM state sw)).map (fun d => d.id) ↔
        ident ∈ (allClients state).map (fun d => d.id)) ∧
    ((allClients (syncStateWithDOM state sw)).map (fun d => d.id)).Perm
        ((allClients state).map (fun d => d.id)) := by
  have hp : ((allClients (syncStateWithDOM state sw)).map (fun d => d.id)).Perm
      ((allClients state).map (fun d => d.id)) := by
    rw [map_id_allClients_sync]
    refine (hperm.map _).trans ?_
    rw [List.map_map]
    refine List.Perm.of_eq (List.map_congr_left ?_)
    intro c hc
    simp [clientMap_of_mem hnodup hc]
  have hnd0 : ((allClients state).map (fun d => d.id)).Nodup := by
    have : (allClients state).map (fun c => toKey c.id) =
        ((allClients state).map (fun d => d.id)).map toKey := by simp
    rw [this] at hnodup
    exact hnodup.of_map
  have hnd : ((allClients (syncStateWithDOM state sw)).map (fun d => d.id)).Nodup :=
    hp.nodup_iff.mpr hnd0
  refine ⟨?_, fun ident => hp.mem_iff, hp⟩
  intro c hc
  have hin : c.id ∈ (allClients (syncStateWithDOM state sw)).map (fun d => d.id) :=
    hp.mem_iff.mpr (List.mem_map_of_mem _ hc)
  rw [allClients_eq_lanes, List.map_append, List.map_append] at hin hnd
  obtain ⟨lane, hlane⟩ :=
    (mem_lanes_iff (fun l => ((syncStateWithDOM state sw).lane l).map (fun d => d.id)) c.id).mp hin
  refine ⟨lane, ?_, fun other hne => ?_⟩
  · exact length_filter_eq_one
      (lane_nodup_of_nodup
        (fun l => ((syncStateWithDOM state sw).lane l).map (fun d => d.id)) hnd lane) hlane
  · exact lanes_disjoint_of_nodup
      (fun l => ((syncStateWithDOM state sw).lane l).map (fun d => d.id)) hnd
      (Ne.symm hne) hlane

/-- Witness for C4: the board `backlog = [X, Y]` with `Y` dragged to the second
lane. -/
theorem syncStateWithDOM_keeps_every_identifier_witness :
    ((allClients (syncStateWithDOM
        ⟨[Card.mk (some (Ident.str "X")) (some "backlog") (some 1) [],
          Card.mk (some (Ident.str "Y")) (some "backlog") (some 2) []], [], []⟩
        ⟨some ["X"], some ["Y"], some []⟩)).map (fun d => d.id)).Perm
      ((allClients
        ⟨[Card.mk (some (Ident.str "X")) (some "backlog") (some 1) [],
          Card.mk (some (Ident.str "Y")) (some "backlog") (some 2) []], [], []⟩).map
        (fun d => d.id)) :=
  (syncStateWithDOM_keeps_every_identifier
    ⟨[Card.mk (some (Ident.str "X")) (some "backlog") (some 1) [],
      Card.mk (some (Ident.str "Y")) (some "backlog") (some 2) []], [], []⟩
    ⟨some ["X"], some ["Y"], some []⟩ (by decide) (List.Perm.refl _)).2.2

/-- C10, as stated, fails: on the board `backlog = [X]` with the view showing
`X` followed by the unknown identifier `Z`, the card `syncStateWithDOM` yields
for `Z` has the lane's status and nothing else, so it has no identifier, and
the update record built for it carries no identifier either. -/
theorem unknown_identifier_card_has_no_id :
    (syncStateWithDOM
        ⟨[Card.mk (some (Ident.str "X")) (some "backlog") (some 1) [("name", "x")]], [], []⟩
        ⟨some ["X", "Z"], some [], some []⟩).backlog[1]?
      = some (Card.mk none (some "backlog") none []) ∧
    ¬ (∃ c : Card, (syncStateWithDOM
        ⟨[Card.mk (some (Ident.str "X")) (some "backlog") (some 1) [("name", "x")]], [], []⟩
        ⟨some ["X", "Z"], some [], some []⟩).backlog[1]? = some c ∧
        c.id = some (Ident.str "Z")) ∧
    (buildUpdates (syncStateWithDOM
        ⟨[Card.mk (some (Ident.str "X")) (some "backlog") (some 1) [("name", "x")]], [], []⟩
        ⟨some ["X", "Z"], some [], some []⟩))[1]?
      = some (Update.mk none "backlog" 2) := by
  decide

/-- C10, amended: on a last-known board none of whose cards has the identifier
`__proto__`, for an identifier of the view that is the key of no card of the
board, `syncStateWithDOM` yields at that position a card with exactly one
attribute, the status of the lane it was found in (no identifier, no
priority, no pass-through attribute), and the update record `buildUpdates`
emits for that position carries no identifier, the lane's status and the
position's priority. -/
theorem unknown_identifier_yields_status_only (state : Clients) (sw : Swimlanes) (lane : Lane)
    (i : Nat) (v : String) (hv : (sw.ids lane)[i]? = some v)
    (habsent : ∀ c ∈ allClients state, toKey c.id ≠ v)
    (_hproto : ∀ c ∈ allClients state, toKey c.id ≠ "__proto__") :
    ((syncStateWithDOM state sw).lane lane)[i]? =
      some (Card.mk none (some lane.status) none []) ∧
    ((buildUpdates (syncStateWithDOM state sw)).filter
        (fun u => decide (u.status = lane.status)))[i]? =
      some (Update.mk none lane.status (i + 1)) := by
  have h1 : ((syncStateWithDOM state sw).lane lane)[i]? =
      some (Card.mk none (some lane.status) none []) := by
    rw [lane_syncStateWithDOM]
    simp [hv, clientMap_none habsent, spreadWithStatus]
  refine ⟨h1, ?_⟩
  rw [filter_buildUpdates, getElem?_laneRecords, h1]
  simp

/-- Witness for C10 amended: the unknown identifier `Z` at position 1 of the
first lane. -/
theorem unknown_identifier_yields_status_only_witness :
    ((syncStateWithDOM
        ⟨[Card.mk (some (Ident.str "X")) (some "backlog") (some 1) [("name", "x")]], [], []⟩
        ⟨some ["X", "Z"], some [], some []⟩).lane Lane.backlog)[1]? =
      some (Card.mk none (some "backlog") none []) :=
  (unknown_identifier_yields_status_only
    ⟨[Card.mk (some (Ident.str "X")) (some "backlog") (some 1) [("name", "x")]], [], []⟩
    ⟨some ["X", "Z"], some [], some []⟩ Lane.backlog 1 "Z" (by decide) (by decide)
    (by decide)).1

/-! ## Lemmas on the drop handler -/

theorem promiseAll_eq_true_iff (n : Nat) (outcome : Nat → FetchResult) :
    promiseAll ((List.range n).map outcome) = true ↔
      ∀ i, i < n → outcome i ≠ FetchResult.rejected := by
  simp [promiseAll]

theorem promiseAll_eq_false_iff (n : Nat) (outcome : Nat → FetchResult) :
    promiseAll ((List.range n).map outcome) = false ↔
      ∃ i, i < n ∧ outcome i = FetchResult.rejected := by
  rw [← Bool.not_eq_true, promiseAll_eq_true_iff]
  push_neg
  rfl

theorem filter_isPut_requests (us : List Update) :
    (us.map putRequest).filter Effect.isPut = us.map putRequest := by
  rw [List.filter_eq_self]
  intro e he
  obtain ⟨u, _, rfl⟩ := List.mem_map.mp he
  rfl

theorem getClients_not_mem_requests (us : List Update) :
    Effect.getClients ∉ us.map putRequest := by
  intro h
  obtain ⟨u, _, hu⟩ := List.mem_map.mp h
  simp [putRequest] at hu

theorem dropHandler_of_rejected (state : Clients) (sw : Swimlanes) (outcome : Nat → FetchResult)
    (reload : Option (List Card))
    (h : ∃ i, i < (buildUpdates (syncStateWithDOM state sw)).length ∧
      outcome i = FetchResult.rejected) :
    dropHandler state sw outcome reload =
      ([Effect.logContainers, Effect.cancelDrake, Effect.setState (syncStateWithDOM state sw)]
          ++ (buildUpdates (syncStateWithDOM state sw)).map putRequest
          ++ [Effect.logSaveFailure],
        syncStateWithDOM state sw) := by
  have := (promiseAll_eq_false_iff _ outcome).mpr h
  simp [dropHandler, persistBoard, this]

theorem dropHandler_of_resolved (state : Clients) (sw : Swimlanes) (outcome : Nat → FetchResult)
    (reload : Option (List Card))
    (h : ∀ i, i < (buildUpdates (syncStateWithDOM state sw)).length →
      outcome i ≠ FetchResult.rejected) :
    dropHandler state sw outcome reload =
      ([Effect.logContainers, Effect.cancelDrake, Effect.setState (syncStateWithDOM state sw)]
          ++ (buildUpdates (syncStateWithDOM state sw)).map putRequest
          ++ [Effect.getClients,
              match reload with
              | some all => Effect.setState (loadClientsFromApi all).clients
              | none => Effect.logSaveFailure],
        match reload with
        | some all => (loadClientsFromApi all).clients
        | none => syncStateWithDOM state sw) := by
  have := (promiseAll_eq_true_iff _ outcome).mpr h
  cases reload <;> simp [dropHandler, persistBoard, this]

/-! ## Theorems on the drop handler -/

/-- C8: when at least one update request of a drop rejects, the drop handler
performs exactly: the log, the cancel, the optimistic `setState` of the
reconciled board, one PUT per record of `buildUpdates` in order, and one
failure diagnostic. So every request is still issued and none is repeated, no
reload fetch is issued, and the final board state is the reconciled board.
When no request rejects, the same PUTs are issued and exactly one reload fetch
follows them. -/
theorem dropHandler_partial_failure (state : Clients) (sw : Swimlanes)
    (outcome : Nat → FetchResult) (reload : Option (List Card)) :
    ((∃ i, i < (buildUpdates (syncStateWithDOM state sw)).length ∧
        outcome i = FetchResult.rejected) →
      (dropHandler state sw outcome reload).1 =
        [Effect.logContainers, Effect.cancelDrake, Effect.setState (syncStateWithDOM state sw)]
          ++ (buildUpdates (syncStateWithDOM state sw)).map putRequest
          ++ [Effect.logSaveFailure] ∧
      (dropHandler state sw outcome reload).1.filter Effect.isPut =
        (buildUpdates (syncStateWithDOM state sw)).map putRequest ∧
      Effect.getClients ∉ (dropHandler state sw outcome reload).1 ∧
      Effect.logSaveFailure ∈ (dropHandler state sw outcome reload).1 ∧
      (dropHandler state sw outcome reload).2 = syncStateWithDOM state sw) ∧
    ((∀ i, i < (buildUpdates (syncStateWithDOM state sw)).length →
        outcome i ≠ FetchResult.rejected) →
      (dropHandler state sw outcome reload).1.filter Effect.isPut =
        (buildUpdates (syncStateWithDOM state sw)).map putRequest ∧
      ((dropHandler state sw outcome reload).1.filter
        (fun e => decide (e = Effect.getClients))).length = 1) := by
  constructor
  · intro h
    rw [dropHandler_of_rejected state sw outcome reload h]
    refine ⟨rfl, ?_, ?_, by simp, rfl⟩
    · simp [List.filter_append, filter_isPut_requests, List.filter_cons, Effect.isPut]
    · simp [putRequest]
  · intro h
    rw [dropHandler_of_resolved state sw outcome reload h]
    have hnone : ((buildUpdates (syncStateWithDOM state sw)).map putRequest).filter
        (fun e => decide (e = Effect.getClients)) = [] := by
      rw [List.filter_eq_nil_iff]
      intro e he
      have := getClients_not_mem_requests (buildUpdates (syncStateWithDOM state sw))
      simp only [decide_eq_true_eq]
      intro heq
      exact this (heq ▸ he)
    constructor
    · cases reload <;>
        simp [List.filter_append, filter_isPut_requests, List.filter_cons, Effect.isPut]
    · cases reload <;> simp [List.filter_append, hnone, List.filter_cons]

/-- Witness for C8: the second of two update requests rejects. -/
theorem dropHandler_partial_failure_witness :
    (∃ i, i < (buildUpdates (syncStateWithDOM
        ⟨[Card.mk (some (Ident.str "X")) (some "backlog") (some 1) [],
          Card.mk (some (Ident.str "Y")) (some "backlog") (some 2) []], [], []⟩
        ⟨some ["X"], some ["Y"], some []⟩)).length ∧
      (fun n : Nat => if n = 1 then FetchResult.rejected else FetchResult.resolved 200) i
        = FetchResult.rejected) ∧
    (dropHandler
        ⟨[Card.mk (some (Ident.str "X")) (some "backlog") (some 1) [],
          Card.mk (some (Ident.str "Y")) (some "backlog") (some 2) []], [], []⟩
        ⟨some ["X"], some ["Y"], some []⟩
        (fun n : Nat => if n = 1 then FetchResult.rejected else FetchResult.resolved 200)
        none).2 =
      syncStateWithDOM
        ⟨[Card.mk (some (Ident.str "X")) (some "backlog") (some 1) [],
          Card.mk (some (Ident.str "Y")) (some "backlog") (some 2) []], [], []⟩
        ⟨some ["X"], some ["Y"], some []⟩ :=
  ⟨⟨1, by decide, by decide⟩,
   ((dropHandler_partial_failure _ _ _ none).1 ⟨1, by decide, by decide⟩).2.2.2.2⟩

/-- C9, as stated, fails: when both update requests of a drop complete with
HTTP status 500 and none raises a network error, `persistBoard` completes
normally, the handler reports no failure and runs the reload. -/
theorem non_success_response_is_not_a_failure :
    (persistBoard (syncStateWithDOM
        ⟨[Card.mk (some (Ident.str "X")) (some "backlog") (some 1) [],
          Card.mk (some (Ident.str "Y")) (some "backlog") (some 2) []], [], []⟩
        ⟨some ["X"], some ["Y"], some []⟩) (fun _ => FetchResult.resolved 500)).2 = true ∧
    (dropHandler
        ⟨[Card.mk (some (Ident.str "X")) (some "backlog") (some 1) [],
          Card.mk (some (Ident.str "Y")) (some "backlog") (some 2) []], [], []⟩
        ⟨some ["X"], some ["Y"], some []⟩ (fun _ => FetchResult.resolved 500)
        (some [Card.mk (some (Ident.str "X")) (some "backlog") (some 1) [],
               Card.mk (some (Ident.str "Y")) (some "backlog") (some 2) []])).1 =
      [Effect.logContainers, Effect.cancelDrake,
       Effect.setState
        ⟨[Card.mk (some (Ident.str "X")) (some "backlog") (some 1) []],
         [Card.mk (some (Ident.str "Y")) (some "in-progress") (some 2) []], []⟩,
       Effect.put "X" "backlog" 1, Effect.put "Y" "in-progress" 1,
       Effect.getClients,
       Effect.setState
        ⟨[Card.mk (some (Ident.str "X")) (some "backlog") (some 1) [],
          Card.mk (some (Ident.str "Y")) (some "backlog") (some 2) []], [], []⟩] := by
  decide

/-- C9, amended: a non-success HTTP response does not count as a failed
update. Whatever HTTP status the responses carry, when no update request
raises a network error `persistBoard` completes normally and the drop handler
issues the reload fetch; it reports a failure only if that reload fails. -/
theorem dropHandler_ignores_response_status (state : Clients) (sw : Swimlanes)
    (outcome : Nat → FetchResult) (reload : Option (List Card))
    (h : ∀ i, i < (buildUpdates (syncStateWithDOM state sw)).length →
      ∃ httpStatus : Nat, outcome i = FetchResult.resolved httpStatus) :
    (persistBoard (syncStateWithDOM state sw) outcome).2 = true ∧
    Effect.getClients ∈ (dropHandler state sw outcome reload).1 ∧
    (Effect.logSaveFailure ∈ (dropHandler state sw outcome reload).1 ↔ reload = none) := by
  have h2 : ∀ i, i < (buildUpdates (syncStateWithDOM state sw)).length →
      outcome i ≠ FetchResult.rejected := by
    intro i hi
    obtain ⟨st, hst⟩ := h i hi
    simp [hst]
  refine ⟨?_, ?_, ?_⟩
  · exact (promiseAll_eq_true_iff _ outcome).mpr h2
  · rw [dropHandler_of_resolved state sw outcome reload h2]
    simp
  · rw [dropHandler_of_resolved state sw outcome reload h2]
    cases reload <;> simp [putRequest]

/-- Witness for C9 amended: every update request answers with HTTP status 500. -/
theorem dropHandler_ignores_response_status_witness :
    Effect.getClients ∈ (dropHandler
        ⟨[Card.mk (some (Ident.str "X")) (some "backlog") (some 1) [],
          Card.mk (some (Ident.str "Y")) (some "backlog") (some 2) []], [], []⟩
        ⟨some ["X"], some ["Y"], some []⟩ (fun _ => FetchResult.resolved 500) none).1 :=
  (dropHandler_ignores_response_status _ _ (fun _ => FetchResult.resolved 500) none
    (fun _ _ => ⟨500, rfl⟩)).2.1

/-! ## Lemmas on moving a card -/

theorem ids_viewOf (b : Clients) (lane : Lane) :
    (viewOf b).ids lane = (b.lane lane).map (fun c => toKey c.id) := by
  cases lane <;> rfl

theorem ids_setLane_same (sw : Swimlanes) (lane : Lane) (ids : List String) :
    (sw.setLane lane ids).ids lane = ids := by
  cases lane <;> rfl

theorem ids_setLane_ne (sw : Swimlanes) {lane other : Lane} (h : other ≠ lane)
    (ids : List String) : (sw.setLane lane ids).ids other = sw.ids other := by
  cases lane <;> cases other <;> first | rfl | exact absurd rfl h

theorem mem_allClients_of_mem_lane {b : Clients} {lane : Lane} {c : Card}
    (h : c ∈ b.lane lane) : c ∈ allClients b := by
  rw [allClients_eq_lanes]
  exact (mem_lanes_iff (fun l => b.lane l) c).mpr ⟨lane, h⟩

theorem map_spread_of_mem {cards : List Card}
    (hnodup : (cards.map (fun c => toKey c.id)).Nodup) (status : String) (l : List Card)
    (hl : ∀ c ∈ l, c ∈ cards) :
    (l.map (fun c => toKey c.id)).map (fun v => spreadWithStatus (clientMap cards v) status) =
      l.map (Card.withStatus status) := by
  rw [List.map_map]
  apply List.map_congr_left
  intro c hc
  simp [clientMap_of_mem hnodup (hl c hc), spreadWithStatus, Card.withStatus]

theorem ids_dragCard_src (state : Clients) {src dst : Lane} (hne : src ≠ dst) {i : Nat} (k : Nat)
    {c : Card} (hc : (state.lane src)[i]? = some c) :
    (dragCard (viewOf state) src i dst k).ids src =
      ((state.lane src).take i ++ (state.lane src).drop (i + 1)).map (fun c => toKey c.id) := by
  have hv : ((viewOf state).ids src)[i]? = some (toKey c.id) := by
    simp [ids_viewOf, hc]
  simp only [dragCard, hv]
  rw [ids_setLane_ne _ hne, ids_setLane_same, ids_viewOf]
  simp [List.map_take, List.map_drop]

theorem ids_dragCard_dst (state : Clients) {src dst : Lane} (hne : src ≠ dst) {i : Nat} (k : Nat)
    {c : Card} (hc : (state.lane src)[i]? = some c) :
    (dragCard (viewOf state) src i dst k).ids dst =
      ((state.lane dst).take k ++ c :: (state.lane dst).drop k).map (fun c => toKey c.id) := by
  have hv : ((viewOf state).ids src)[i]? = some (toKey c.id) := by
    simp [ids_viewOf, hc]
  simp only [dragCard, hv]
  rw [ids_setLane_same, ids_setLane_ne _ (Ne.symm hne), ids_viewOf]
  simp [List.map_take, List.map_drop]

/-! ## Theorems on moving a card -/

/-- C7, as stated, fails. On the board `backlog = [X(p1), Y(p2)]`, dragging `Y`
to position 0 of the second lane gives a reconciled board whose card `Y` still
has priority 2, not 1; and dragging `X` instead leaves `Y` alone in the first
lane with priority 2, so the remaining cards are not numbered `1..count`.
`syncStateWithDOM` never writes `priority`; only the records of `buildUpdates`
carry the new numbers. -/
theorem reconciled_priority_is_not_recomputed :
    syncStateWithDOM
        ⟨[Card.mk (some (Ident.str "X")) (some "backlog") (some 1) [],
          Card.mk (some (Ident.str "Y")) (some "backlog") (some 2) []], [], []⟩
        (dragCard (viewOf
          ⟨[Card.mk (some (Ident.str "X")) (some "backlog") (some 1) [],
            Card.mk (some (Ident.str "Y")) (some "backlog") (some 2) []], [], []⟩)
          Lane.backlog 1 Lane.inProgress 0) =
      ⟨[Card.mk (some (Ident.str "X")) (some "backlog") (some 1) []],
       [Card.mk (some (Ident.str "Y")) (some "in-progress") (some 2) []], []⟩ ∧
    (syncStateWithDOM
        ⟨[Card.mk (some (Ident.str "X")) (some "backlog") (some 1) [],
          Card.mk (some (Ident.str "Y")) (some "backlog") (some 2) []], [], []⟩
        (dragCard (viewOf
          ⟨[Card.mk (some (Ident.str "X")) (some "backlog") (some 1) [],
            Card.mk (some (Ident.str "Y")) (some "backlog") (some 2) []], [], []⟩)
          Lane.backlog 1 Lane.inProgress 0)).inProgress.map (fun c => c.priority)
      ≠ [some 1] ∧
    (syncStateWithDOM
        ⟨[Card.mk (some (Ident.str "X")) (some "backlog") (some 1) [],
          Card.mk (some (Ident.str "Y")) (some "backlog") (some 2) []], [], []⟩
        (dragCard (viewOf
          ⟨[Card.mk (some (Ident.str "X")) (some "backlog") (some 1) [],
            Card.mk (some (Ident.str "Y")) (some "backlog") (some 2) []], [], []⟩)
          Lane.backlog 0 Lane.inProgress 0)).backlog.map (fun c => c.priority)
      = [some 2] := by
  decide

/-- C7, amended: on a board whose identifier keys are pairwise distinct, after
the card `c` at position `i` of lane `src` is dragged to position `k` of a
different lane `dst`, the board returned by `syncStateWithDOM` has `c` at
position `k` of `dst` with status `dst` and its other attributes, priority
included, unchanged; `dst` holds its former cards around it and `src` holds its
remaining cards in their order, each with the lane's status and its own
attributes otherwise. The new numbering is that of `buildUpdates` on this
board: the record for `c` has status `dst` and priority `k + 1`, and the
records of `src` are its remaining cards with priorities `1..count`. -/
theorem moved_card_reconciled_and_renumbered (state : Clients) (src dst : Lane) (i k : Nat)
    (c : Card) (hnodup : ((allClients state).map (fun c => toKey c.id)).Nodup)
    (hne : src ≠ dst) (hc : (state.lane src)[i]? = some c)
    (hk : k ≤ (state.lane dst).length) :
    ((syncStateWithDOM state (dragCard (viewOf state) src i dst k)).lane dst)[k]? =
      some (Card.mk c.id (some dst.status) c.priority c.rest) ∧
    (syncStateWithDOM state (dragCard (viewOf state) src i dst k)).lane dst =
      ((state.lane dst).take k ++ c :: (state.lane dst).drop k).map
        (Card.withStatus dst.status) ∧
    (syncStateWithDOM state (dragCard (viewOf state) src i dst k)).lane src =
      ((state.lane src).take i ++ (state.lane src).drop (i + 1)).map
        (Card.withStatus src.status) ∧
    ((buildUpdates (syncStateWithDOM state (dragCard (viewOf state) src i dst k))).filter
        (fun u => decide (u.status = dst.status)))[k]? =
      some (Update.mk c.id dst.status (k + 1)) ∧
    ((buildUpdates (syncStateWithDOM state (dragCard (viewOf state) src i dst k))).filter
        (fun u => decide (u.status = src.status))).map (fun u => u.priority) =
      List.range' 1 ((state.lane src).length - 1) ∧
    ((buildUpdates (syncStateWithDOM state (dragCard (viewOf state) src i dst k))).filter
        (fun u => decide (u.status = src.status))).map (fun u => u.id) =
      ((state.lane src).take i ++ (state.lane src).drop (i + 1)).map (fun d => d.id) := by
  have hcmem : c ∈ state.lane src := List.getElem?_mem hc
  have hi : i < (state.lane src).length := by
    by_contra hlt
    rw [List.getElem?_eq_none (Nat.le_of_not_lt hlt)] at hc
    exact Option.noConfusion hc
  have hdst : (syncStateWithDOM state (dragCard (viewOf state) src i dst k)).lane dst =
      ((state.lane dst).take k ++ c :: (state.lane dst).drop k).map
        (Card.withStatus dst.status) := by
    rw [lane_syncStateWithDOM, ids_dragCard_dst state hne k hc]
    apply map_spread_of_mem hnodup
    intro d hd
    rcases List.mem_append.mp hd with h | h
    · exact mem_allClients_of_mem_lane (List.mem_of_mem_take h)
    · rcases List.mem_cons.mp h with h | h
      · exact h ▸ mem_allClients_of_mem_lane hcmem
      · exact mem_allClients_of_mem_lane (List.mem_of_mem_drop h)
  have hsrc : (syncStateWithDOM state (dragCard (viewOf state) src i dst k)).lane src =
      ((state.lane src).take i ++ (state.lane src).drop (i + 1)).map
        (Card.withStatus src.status) := by
    rw [lane_syncStateWithDOM, ids_dragCard_src state hne k hc]
    apply map_spread_of_mem hnodup
    intro d hd
    rcases List.mem_append.mp hd with h | h
    · exact mem_allClients_of_mem_lane (List.mem_of_mem_take h)
    · exact mem_allClients_of_mem_lane (List.mem_of_mem_drop h)
  have hat : ((syncStateWithDOM state (dragCard (viewOf state) src i dst k)).lane dst)[k]? =
      some (Card.mk c.id (some dst.status) c.priority c.rest) := by
    rw [hdst, List.map_append, List.getElem?_append_right (by simp [hk])]
    simp [hk, Card.withStatus]
  refine ⟨hat, hdst, hsrc, ?_, ?_, ?_⟩
  · rw [filter_buildUpdates, getElem?_laneRecords, hat]
    simp
  · rw [filter_buildUpdates, map_priority_laneRecords, hsrc]
    congr 1
    simp only [List.length_map, List.length_append, List.length_take, List.length_drop]
    omega
  · rw [filter_buildUpdates, map_id_laneRecords, hsrc, List.map_map]
    rfl

/-- Witness for C7 amended, the scenario of the specification: from
`backlog = [X(p1), Y(p2)]`, `Y` is dragged to position 0 of the second lane;
the record for `Y` is `{Y, in-progress, 1}`. -/
theorem moved_card_reconciled_and_renumbered_witness :
    ((buildUpdates (syncStateWithDOM
        ⟨[Card.mk (some (Ident.str "X")) (some "backlog") (some 1) [],
          Card.mk (some (Ident.str "Y")) (some "backlog") (some 2) []], [], []⟩
        (dragCard (viewOf
          ⟨[Card.mk (some (Ident.str "X")) (some "backlog") (some 1) [],
            Card.mk (some (Ident.str "Y")) (some "backlog") (some 2) []], [], []⟩)
          Lane.backlog 1 Lane.inProgress 0))).filter
        (fun u => decide (u.status = Lane.inProgress.status)))[0]? =
      some (Update.mk (some (Ident.str "Y")) "in-progress" 1) :=
  (moved_card_reconciled_and_renumbered
    ⟨[Card.mk (some (Ident.str "X")) (some "backlog") (some 1) [],
      Card.mk (some (Ident.str "Y")) (some "backlog") (some 2) []], [], []⟩
    Lane.backlog Lane.inProgress 1 0
    (Card.mk (some (Ident.str "Y")) (some "backlog") (some 2) [])
    (by decide) (by decide) (by decide) (by decide)).2.2.2.1

/-! ## Lemmas on the round trip -/

theorem eq_of_perm_of_map_eq {f : Card → Int} :
    ∀ {l₁ l₂ : List Card}, l₁.Perm l₂ → l₁.map f = l₂.map f → (l₂.map f).Nodup → l₁ = l₂
  | [], l₂, hp, _, _ => (List.nil_perm.mp hp).symm
  | a :: t, [], hp, _, _ => absurd hp.length_eq (by simp)
  | a :: t, b :: u, hp, hm, hnd => by
    simp only [List.map_cons, List.cons.injEq] at hm
    have ha : a ∈ b :: u := hp.subset (List.mem_cons_self _ _)
    have hab : a = b :=
      List.inj_on_of_nodup_map hnd ha (List.mem_cons_self _ _) hm.1
    subst hab
    have hnd2 : (u.map f).Nodup := (List.nodup_cons.mp hnd).2
    rw [eq_of_perm_of_map_eq hp.cons_inv hm.2 hnd2]

/-- Sorting by priority a rearrangement of a list whose priorities are all
present and strictly increasing gives back that list. -/
theorem jsSort_eq_of_perm {X T : List Card} (hp : X.Perm T)
    (hsome : ∀ c ∈ T, ∃ p : Int, c.priority = some p)
    (hlt : T.Pairwise (fun a b => a.priority.getD 0 < b.priority.getD 0)) :
    jsSort comparePriority X = T := by
  have hXsome : ∀ c ∈ X, ∃ p : Int, c.priority = some p := fun c hc =>
    hsome c (hp.subset hc)
  have hmap : (jsSort comparePriority X).map (fun c => c.priority.getD 0) =
      (X.map (fun c => c.priority.getD 0)).insertionSort (fun x y : Int => x ≤ y) := by
    unfold jsSort
    apply List.map_insertionSort
    intro a ha b hb
    obtain ⟨x, hx⟩ := hXsome a ha
    obtain ⟨y, hy⟩ := hXsome b hb
    simp [comparePriority, hx, hy]
  have hTlt : (T.map (fun c => c.priority.getD 0)).Sorted (fun x y : Int => x < y) :=
    List.pairwise_map.mpr hlt
  have hTle : (T.map (fun c => c.priority.getD 0)).Sorted (fun x y : Int => x ≤ y) :=
    hTlt.imp (fun h => le_of_lt h)
  have heq : (jsSort comparePriority X).map (fun c => c.priority.getD 0) =
      T.map (fun c => c.priority.getD 0) := by
    rw [hmap]
    exact List.eq_of_perm_of_sorted
      ((List.perm_insertionSort _ _).trans (hp.map _)) (List.sorted_insertionSort _ _) hTle
  exact eq_of_perm_of_map_eq ((jsSort_perm _ X).trans hp) heq hTlt.nodup

theorem id_storeApply (c : Card) (u : Update) : (storeApply c u).id = c.id := by
  unfold storeApply
  split <;> rfl

theorem foldl_storeApply_of_not_mem (us : List Update) (c : Card)
    (h : ∀ u ∈ us, toKey c.id ≠ toKey u.id) : us.foldl storeApply c = c := by
  induction us with
  | nil => rfl
  | cons u us ih =>
    rw [List.foldl_cons]
    have hu : storeApply c u = c := by
      simp [storeApply, h u (List.mem_cons_self _ _)]
    rw [hu]
    exact ih (fun v hv => h v (List.mem_cons_of_mem _ hv))

theorem foldl_storeApply_of_mem {us : List Update}
    (hnodup : (us.map (fun u => toKey u.id)).Nodup) {u : Update} (hu : u ∈ us) (c : Card)
    (hkey : toKey c.id = toKey u.id) :
    us.foldl storeApply c =
      Card.mk c.id (some u.status) (some (u.priority : Int)) c.rest := by
  induction us generalizing c with
  | nil => simp at hu
  | cons v vs ih =>
    rw [List.map_cons, List.nodup_cons] at hnodup
    rw [List.foldl_cons]
    rcases List.mem_cons.mp hu with h | h
    · subst h
      have h1 : storeApply c u =
          Card.mk c.id (some u.status) (some (u.priority : Int)) c.rest := by
        simp [storeApply, hkey]
      rw [h1]
      apply foldl_storeApply_of_not_mem
      intro w hw hweq
      apply hnodup.1
      simp only at hweq
      rw [← hkey, hweq]
      exact List.mem_map_of_mem _ hw
    · have hne : toKey c.id ≠ toKey v.id := by
        intro heq
        apply hnodup.1
        rw [← heq, hkey]
        exact List.mem_map_of_mem _ h
      have h1 : storeApply c v = c := by simp [storeApply, hne]
      rw [h1]
      exact ih hnodup.2 h c hkey

theorem storeApplyAll_eq (us : List Update) (store : List Card) :
    storeApplyAll us store = store.map (fun c => us.foldl storeApply c) := by
  unfold storeApplyAll
  induction us generalizing store with
  | nil => simp
  | cons u us ih =>
    rw [List.foldl_cons, ih, List.map_map]
    rfl

theorem id_foldl_storeApply (us : List Update) (c : Card) :
    (us.foldl storeApply c).id = c.id := by
  induction us generalizing c with
  | nil => rfl
  | cons u us ih => rw [List.foldl_cons, ih, id_storeApply]

theorem getElem?_laneStored (status : String) (l : List Card) (idx j : Nat) :
    (laneStored status l idx)[j]? =
      (l[j]?).map
        (fun r => Card.mk r.id (some status) (some ((idx + j + 1 : Nat) : Int)) r.rest) := by
  induction l generalizing idx j with
  | nil => simp [laneStored]
  | cons c cs ih =>
    cases j with
    | zero => simp [laneStored]
    | succ j =>
      simp only [laneStored, List.getElem?_cons_succ, ih]
      congr 1
      funext r
      congr 3
      omega

theorem mem_laneStored_iff (status : String) (l : List Card) (c : Card) :
    c ∈ laneStored status l 0 ↔
      ∃ (j : Nat) (r : Card), l[j]? = some r ∧
        c = Card.mk r.id (some status) (some ((j + 1 : Nat) : Int)) r.rest := by
  rw [List.mem_iff_getElem?]
  constructor
  · rintro ⟨j, hj⟩
    rw [getElem?_laneStored] at hj
    cases hr : l[j]? with
    | none => simp [hr] at hj
    | some r =>
      refine ⟨j, r, hr, ?_⟩
      simpa [hr] using hj.symm
  · rintro ⟨j, r, hr, rfl⟩
    exact ⟨j, by simp [getElem?_laneStored, hr]⟩

theorem map_id_laneStored (status : String) (l : List Card) (idx : Nat) :
    (laneStored status l idx).map (fun c => c.id) = l.map (fun c => c.id) := by
  induction l generalizing idx with
  | nil => rfl
  | cons c cs ih => simp [laneStored, ih]

theorem status_of_mem_laneStored {status : String} {l : List Card} {idx : Nat} {c : Card}
    (h : c ∈ laneStored status l idx) : c.status = some status := by
  induction l generalizing idx with
  | nil => simp [laneStored] at h
  | cons r rs ih =>
    simp only [laneStored, List.mem_cons] at h
    rcases h with h | h
    · rw [h]
    · exact ih h

theorem priority_of_mem_laneStored {status : String} {l : List Card} {idx : Nat} {c : Card}
    (h : c ∈ laneStored status l idx) :
    ∃ p : Int, c.priority = some p ∧ (idx : Int) < p := by
  induction l generalizing idx with
  | nil => simp [laneStored] at h
  | cons r rs ih =>
    simp only [laneStored, List.mem_cons] at h
    rcases h with h | h
    · exact ⟨((idx + 1 : Nat) : Int), by rw [h], by push_cast; omega⟩
    · obtain ⟨p, hp, hlt⟩ := ih h
      exact ⟨p, hp, by push_cast at hlt; omega⟩

theorem pairwise_laneStored (status : String) (l : List Card) (idx : Nat) :
    (laneStored status l idx).Pairwise
      (fun a b => a.priority.getD 0 < b.priority.getD 0) := by
  induction l generalizing idx with
  | nil => exact List.Pairwise.nil
  | cons r rs ih =>
    simp only [laneStored]
    refine List.Pairwise.cons ?_ (ih (idx + 1))
    intro b hb
    obtain ⟨p, hp, hlt⟩ := priority_of_mem_laneStored hb
    simpa [hp] using hlt

theorem filter_laneStored_self (status : String) (l : List Card) (idx : Nat) :
    (laneStored status l idx).filter (fun c => decide (c.status = some status)) =
      laneStored status l idx := by
  rw [List.filter_eq_self]
  intro c hc
  simp [status_of_mem_laneStored hc]

theorem filter_laneStored_ne {s t : String} (hst : s ≠ t) (l : List Card) (idx : Nat) :
    (laneStored s l idx).filter (fun c => decide (c.status = some t)) = [] := by
  rw [List.filter_eq_nil_iff]
  intro c hc
  simp [status_of_mem_laneStored hc, hst]

theorem filter_stored_lanes (b : Clients) (lane : Lane) :
    (laneStored Lane.backlog.status (b.lane Lane.backlog) 0
      ++ laneStored Lane.inProgress.status (b.lane Lane.inProgress) 0
      ++ laneStored Lane.complete.status (b.lane Lane.complete) 0).filter
        (fun c => decide (c.status = some lane.status)) =
      laneStored lane.status (b.lane lane) 0 := by
  cases lane <;>
    simp only [Lane.status, List.filter_append, filter_laneStored_self] <;>
    rw [filter_laneStored_ne (by decide), filter_laneStored_ne (by decide)] <;>
    simp

theorem map_observed_laneStored (status : String) (l : List Card) (idx : Nat)
    (h : ∀ c ∈ l, c.status = some status) :
    (laneStored status l idx).map Card.observed = l.map Card.observed := by
  induction l generalizing idx with
  | nil => rfl
  | cons r rs ih =>
    simp only [laneStored, List.map_cons]
    rw [ih (idx + 1) (fun c hc => h c (List.mem_cons_of_mem _ hc))]
    simp [Card.observed, h r (List.mem_cons_self _ _)]

theorem status_spreadWithStatus (found : Option Card) (status : String) :
    (spreadWithStatus found status).status = some status := by
  cases found <;> rfl

theorem status_of_mem_sync {state : Clients} {sw : Swimlanes} {lane : Lane} {c : Card}
    (h : c ∈ (syncStateWithDOM state sw).lane lane) : c.status = some lane.status := by
  rw [lane_syncStateWithDOM] at h
  obtain ⟨v, _, rfl⟩ := List.mem_map.mp h
  exact status_spreadWithStatus _ _

theorem map_id_buildUpdates (b : Clients) :
    (buildUpdates b).map (fun u => u.id) = (allClients b).map (fun c => c.id) := by
  simp [buildUpdates_eq, map_id_laneRecords, allClients]

theorem mem_buildUpdates_of_getElem? {b : Clients} {lane : Lane} {j : Nat} {r : Card}
    (h : (b.lane lane)[j]? = some r) :
    Update.mk r.id lane.status (j + 1) ∈ buildUpdates b := by
  have h1 : Update.mk r.id lane.status (j + 1) ∈
      (buildUpdates b).filter (fun u => decide (u.status = lane.status)) := by
    rw [filter_buildUpdates, List.mem_iff_getElem?]
    exact ⟨j, by simp [getElem?_laneRecords, h]⟩
  exact List.mem_of_mem_filter h1

theorem map_key_allClients_sync (state : Clients) (sw : Swimlanes)
    (hpresent : ∀ v ∈ sw.allIds, ∃ c ∈ allClients state, toKey c.id = v) :
    (allClients (syncStateWithDOM state sw)).map (fun c => toKey c.id) = sw.allIds := by
  have h : ∀ lane : Lane,
      ((syncStateWithDOM state sw).lane lane).map (fun c => toKey c.id) = sw.ids lane := by
    intro lane
    rw [lane_syncStateWithDOM, List.map_map]
    conv_rhs => rw [← List.map_id (sw.ids lane)]
    apply List.map_congr_left
    intro v hv
    have hv2 : v ∈ sw.allIds := by
      rw [allIds_eq_lanes]
      exact (mem_lanes_iff (fun l => sw.ids l) v).mpr ⟨lane, hv⟩
    obtain ⟨c, hc⟩ := clientMap_isSome (hpresent v hv2)
    simp [hc, spreadWithStatus, (clientMap_some hc).2]
  rw [allClients_eq_lanes, allIds_eq_lanes]
  simp only [List.map_append, h]

theorem present_of_perm {state : Clients} {sw : Swimlanes}
    (hperm : sw.allIds.Perm ((allClients state).map (fun c => toKey c.id))) :
    ∀ v ∈ sw.allIds, ∃ c ∈ allClients state, toKey c.id = v := by
  intro v hv
  obtain ⟨c, hc, hk⟩ := List.mem_map.mp (hperm.subset hv)
  exact ⟨c, hc, hk⟩

theorem nodup_keys_buildUpdates_sync {state : Clients} {sw : Swimlanes}
    (hnodup : ((allClients state).map (fun c => toKey c.id)).Nodup)
    (hperm : sw.allIds.Perm ((allClients state).map (fun c => toKey c.id))) :
    ((buildUpdates (syncStateWithDOM state sw)).map (fun u => toKey u.id)).Nodup := by
  have h : (buildUpdates (syncStateWithDOM state sw)).map (fun u => toKey u.id) =
      sw.allIds := by
    rw [← map_key_allClients_sync state sw (present_of_perm hperm)]
    have := congrArg (List.map toKey) (map_id_buildUpdates (syncStateWithDOM state sw))
    simpa [List.map_map, Function.comp_def] using this
  rw [h]
  exact hperm.nodup_iff.mpr hnodup

/-- The card shown at position `j` of a lane: what `syncStateWithDOM` puts there
and what the store holds for it once the update records are applied. -/
theorem stored_card_of_view_position {state : Clients} {sw : Swimlanes}
    (hnodup : ((allClients state).map (fun c => toKey c.id)).Nodup)
    (hperm : sw.allIds.Perm ((allClients state).map (fun c => toKey c.id)))
    {lane : Lane} {j : Nat} {a s : Card} (ha : a ∈ allClients state)
    (hj : (sw.ids lane)[j]? = some (toKey a.id)) (hs : s.core = a.core) :
    ((syncStateWithDOM state sw).lane lane)[j]? = some (Card.withStatus lane.status a) ∧
    (buildUpdates (syncStateWithDOM state sw)).foldl storeApply s =
      Card.mk a.id (some lane.status) (some ((j + 1 : Nat) : Int)) a.rest := by
  have h1 : ((syncStateWithDOM state sw).lane lane)[j]? =
      some (Card.withStatus lane.status a) := by
    rw [lane_syncStateWithDOM]
    simp [hj, clientMap_of_mem hnodup ha, spreadWithStatus, Card.withStatus]
  refine ⟨h1, ?_⟩
  have hu := mem_buildUpdates_of_getElem? h1
  have hsid : s.id = a.id := congrArg Prod.fst hs
  have hsrest : s.rest = a.rest := congrArg Prod.snd hs
  have := foldl_storeApply_of_mem (nodup_keys_buildUpdates_sync hnodup hperm) hu s
    (by simp [Card.withStatus, hsid])
  rw [this]
  simp [Card.withStatus, hsid, hsrest]

theorem store_perm_stored_lanes {state : Clients} {sw : Swimlanes} {store : List Card}
    (hnodup : ((allClients state).map (fun c => toKey c.id)).Nodup)
    (hperm : sw.allIds.Perm ((allClients state).map (fun c => toKey c.id)))
    (hstore : (store.map Card.core).Perm ((allClients state).map Card.core)) :
    (storeApplyAll (buildUpdates (syncStateWithDOM state sw)) store).Perm
      (laneStored Lane.backlog.status ((syncStateWithDOM state sw).lane Lane.backlog) 0
        ++ laneStored Lane.inProgress.status
            ((syncStateWithDOM state sw).lane Lane.inProgress) 0
        ++ laneStored Lane.complete.status
            ((syncStateWithDOM state sw).lane Lane.complete) 0) := by
  have hkeys_store : (store.map (fun c => toKey c.id)).Nodup := by
    have h := hstore.map (fun p : Option Ident × List (String × String) => toKey p.1)
    simp only [List.map_map] at h
    exact h.nodup_iff.mpr hnodup
  rw [storeApplyAll_eq]
  apply (List.perm_ext_iff_of_nodup ?_ ?_).mpr
  · intro c
    constructor
    · intro hc
      obtain ⟨s, hs, rfl⟩ := List.mem_map.mp hc
      obtain ⟨a, ha, hcore⟩ := List.mem_map.mp (hstore.subset (List.mem_map_of_mem _ hs))
      have hv : toKey a.id ∈ sw.allIds := hperm.symm.subset (List.mem_map_of_mem _ ha)
      rw [allIds_eq_lanes] at hv
      obtain ⟨lane, hlane⟩ := (mem_lanes_iff (fun l => sw.ids l) _).mp hv
      obtain ⟨j, hj⟩ := List.mem_iff_getElem?.mp hlane
      obtain ⟨h1, h2⟩ := stored_card_of_view_position hnodup hperm ha hj hcore.symm
      rw [h2]
      apply (mem_lanes_iff
        (fun l => laneStored l.status ((syncStateWithDOM state sw).lane l) 0) _).mpr
      exact ⟨lane, (mem_laneStored_iff _ _ _).mpr ⟨j, _, h1, by simp [Card.withStatus]⟩⟩
    · intro hc
      obtain ⟨lane, hlane⟩ := (mem_lanes_iff
        (fun l => laneStored l.status ((syncStateWithDOM state sw).lane l) 0) _).mp hc
      obtain ⟨j, r, hr, rfl⟩ := (mem_laneStored_iff _ _ _).mp hlane
      have hr2 := hr
      rw [lane_syncStateWithDOM, List.getElem?_map] at hr2
      cases hv : (sw.ids lane)[j]? with
      | none => simp [hv] at hr2
      | some v =>
        have hvmem : v ∈ sw.allIds := by
          rw [allIds_eq_lanes]
          exact (mem_lanes_iff (fun l => sw.ids l) v).mpr ⟨lane, List.getElem?_mem hv⟩
        obtain ⟨a, ha, hka⟩ := present_of_perm hperm v hvmem
        obtain ⟨s, hs, hcore⟩ :=
          List.mem_map.mp (hstore.symm.subset (List.mem_map_of_mem Card.core ha))
        obtain ⟨h1, h2⟩ :=
          stored_card_of_view_position hnodup hperm ha (hka ▸ hv) hcore
        have hra : r = Card.withStatus lane.status a := by
          rw [hr] at h1
          exact Option.some.inj h1
        apply List.mem_map.mpr
        refine ⟨s, hs, ?_⟩
        simp only [h2, hra, Card.withStatus]
  · apply List.Nodup.of_map (fun c => toKey c.id)
    rw [List.map_map]
    have : ((fun c => toKey c.id) ∘ fun c =>
        List.foldl storeApply c (buildUpdates (syncStateWithDOM state sw))) =
        fun c => toKey c.id := by
      funext c
      simp [id_foldl_storeApply]
    rw [this]
    exact hkeys_store
  · apply List.Nodup.of_map (fun c => toKey c.id)
    have h : (laneStored Lane.backlog.status ((syncStateWithDOM state sw).lane Lane.backlog) 0
        ++ laneStored Lane.inProgress.status
            ((syncStateWithDOM state sw).lane Lane.inProgress) 0
        ++ laneStored Lane.complete.status
            ((syncStateWithDOM state sw).lane Lane.complete) 0).map (fun c => toKey c.id)
        = sw.allIds := by
      rw [← map_key_allClients_sync state sw (present_of_perm hperm), allClients_eq_lanes]
      have e : ∀ (st : String) (l : List Card),
          (laneStored st l 0).map (fun c => toKey c.id) = l.map (fun c => toKey c.id) := by
        intro st l
        have := congrArg (List.map toKey) (map_id_laneStored st l 0)
        simpa [List.map_map, Function.comp_def] using this
      simp only [List.map_append, e]
    rw [h]
    exact hperm.nodup_iff.mpr hnodup

/-! ## Theorem on the round trip -/

/-- C5: round trip. Let the board have pairwise distinct identifier keys, the
view show a permutation of them, and `R` be the result of `syncStateWithDOM`.
Let the simulated remote store hold the board's cards (same ids and
pass-through attributes, any status and priority), apply every record of
`buildUpdates R`, and return its collection in any order. Then each lane of
the classification of that collection holds the same cards in the same order
as the same lane of `R`, as far as id, status and pass-through attributes
go. -/
theorem round_trip_observationally_equal (state : Clients) (sw : Swimlanes)
    (store fetched : List Card)
    (hnodup : ((allClients state).map (fun c => toKey c.id)).Nodup)
    (hperm : sw.allIds.Perm ((allClients state).map (fun c => toKey c.id)))
    (hstore : (store.map Card.core).Perm ((allClients state).map Card.core))
    (hfetch : fetched.Perm
      (storeApplyAll (buildUpdates (syncStateWithDOM state sw)) store)) :
    ∀ lane : Lane,
      ((loadClientsFromApi fetched).clients.lane lane).map Card.observed =
        ((syncStateWithDOM state sw).lane lane).map Card.observed := by
  intro lane
  have hp := (hfetch.trans (store_perm_stored_lanes hnodup hperm hstore)).filter
    (fun c => decide (c.status = some lane.status))
  rw [filter_stored_lanes] at hp
  rw [lane_loadClientsFromApi]
  rw [jsSort_eq_of_perm hp
    (fun c hc => by
      obtain ⟨p, hp, _⟩ := priority_of_mem_laneStored hc
      exact ⟨p, hp⟩)
    (pairwise_laneStored _ _ _)]
  exact map_observed_laneStored _ _ _ (fun c hc => status_of_mem_sync hc)

/-- Witness for C5: the board `backlog = [X, Y]` with `Y` dragged to the second
lane, the store answering with `Y` before `X`. -/
theorem round_trip_observationally_equal_witness :
    ((loadClientsFromApi
          [Card.mk (some (Ident.str "Y")) (some "in-progress") (some 1) [("name", "y")],
           Card.mk (some (Ident.str "X")) (some "backlog") (some 1) [("name", "x")]]).clients.lane
          Lane.inProgress).map Card.observed =
        ((syncStateWithDOM
          ⟨[Card.mk (some (Ident.str "X")) (some "backlog") (some 1) [("name", "x")],
            Card.mk (some (Ident.str "Y")) (some "backlog") (some 2) [("name", "y")]], [], []⟩
          ⟨some ["X"], some ["Y"], some []⟩).lane Lane.inProgress).map Card.observed :=
  round_trip_observationally_equal
    ⟨[Card.mk (some (Ident.str "X")) (some "backlog") (some 1) [("name", "x")],
      Card.mk (some (Ident.str "Y")) (some "backlog") (some 2) [("name", "y")]], [], []⟩
    ⟨some ["X"], some ["Y"], some []⟩
    [Card.mk (some (Ident.str "X")) (some "backlog") (some 1) [("name", "x")],
     Card.mk (some (Ident.str "Y")) (some "backlog") (some 2) [("name", "y")]]
    [Card.mk (some (Ident.str "Y")) (some "in-progress") (some 1) [("name", "y")],
     Card.mk (some (Ident.str "X")) (some "backlog") (some 1) [("name", "x")]]
    (by decide) (List.Perm.refl _) (List.Perm.refl _)
    (by
      have h : storeApplyAll (buildUpdates (syncStateWithDOM
          ⟨[Card.mk (some (Ident.str "X")) (some "backlog") (some 1) [("name", "x")],
            Card.mk (some (Ident.str "Y")) (some "backlog") (some 2) [("name", "y")]], [], []⟩
          ⟨some ["X"], some ["Y"], some []⟩))
          [Card.mk (some (Ident.str "X")) (some "backlog") (some 1) [("name", "x")],
           Card.mk (some (Ident.str "Y")) (some "backlog") (some 2) [("name", "y")]] =
          [Card.mk (some (Ident.str "X")) (some "backlog") (some 1) [("name", "x")],
           Card.mk (some (Ident.str "Y")) (some "in-progress") (some 1) [("name", "y")]] := by
        decide
      rw [h]
      exact List.Perm.swap _ _ _)
    Lane.inProgress

end Board
